import Mathlib

/-!
Verification of the layered override-resolution and merge engine of
`f4pga/flow_config.py` (da4089/f4pga).

The raw configuration document is a JSON-like tree of string-keyed maps
whose leaf slots hold lists of strings (dependency paths / value literals).
Python dicts are modelled as insertion-ordered association lists with
unique keys; in-place mutation of a sub-dict obtained from the document is
rendered by threading the updated document through each operation.
Uncaught Python exceptions (KeyError, AttributeError, IndexError, ...) are
rendered by an explicit `exn` result carrying the exception kind.
-/

/-- A Python value as stored in the flow-configuration document: a string
scalar, a list of scalars (an override slot's contents), or a nested
string-keyed dict. -/
inductive PyVal where
  | str : String → PyVal
  | list : List String → PyVal
  | dict : List (String × PyVal) → PyVal
deriving Repr

/-- A Python dict with string keys: an insertion-ordered association list. -/
abbrev Entries := List (String × PyVal)

/-- Result of running a piece of Python code: a normal return value, or an
uncaught exception of the given kind. -/
inductive PyResult (α : Type) where
  | ok : α → PyResult α
  | exn : String → PyResult α
deriving Repr

/-- `d.get(k)`: first (only) binding of `k`, if any. -/
def dget {β : Type} : List (String × β) → String → Option β
  | [], _ => none
  | (k, v) :: rest, n => if k = n then some v else dget rest n

/-- `d[k] = v`: replace the binding in place if the key exists (Python keeps
the original insertion position), otherwise append the new binding. -/
def dset {β : Type} : List (String × β) → String → β → List (String × β)
  | [], n, v => [(n, v)]
  | (k, w) :: rest, n, v =>
    if k = n then (k, v) :: rest else (k, w) :: dset rest n v

/-- `d.update(u)`: assign every binding of `u` into `d`, in order; each name
present in `u` has its whole value replaced in `d`. -/
def dupdate {β : Type} : List (String × β) → List (String × β) → List (String × β)
  | d, [] => d
  | d, (k, v) :: rest => dupdate (dset d k v) rest

/-- `d.pop(k)`: remove the binding of `k`, if any. -/
def dpop {β : Type} : List (String × β) → String → List (String × β)
  | [], _ => []
  | (k, v) :: rest, n => if k = n then rest else (k, v) :: dpop rest n

/-- `firstSome a b` is `a` when `a` is `some`, else `b`: the per-name view of
dict update, most recent writer first. -/
def firstSome {α : Type} : Option α → Option α → Option α
  | some v, _ => some v
  | none, b => b

example : dget (dset [("a", (1 : Nat))] "b" 2) "b" = some 2 := by decide
example : dupdate [("a", (1 : Nat)), ("b", 2)] [("a", 3)] = [("a", 3), ("b", 2)] := by decide

/-- Python truthiness of an optional string argument: `None` and `''` are
falsy (the source guards `_get_ov_dict` with `if not platform` / `if stage`). -/
def truthy : Option String → Bool
  | none => false
  | some s => !(s == "")

/-- Python truthiness of a stored document value: empty strings, lists and
dicts are falsy (the source guards `add_platform` with `if d`). -/
def truthyVal : PyVal → Bool
  | .str s => !(s == "")
  | .list l => !l.isEmpty
  | .dict d => !d.isEmpty

/-- `_get_lazy_dict(parent, name)`: return `parent[name]`, inserting a fresh
empty dict first when the key is absent. Returns the value together with the
updated parent (the value stays aliased into the parent in Python; callers
below thread their modifications back with `ov_dict_set`). -/
def get_lazy_dict (parent : Entries) (name : String) : PyVal × Entries :=
  match dget parent name with
  | some v => (v, parent)
  | none => (.dict [], dset parent name (.dict []))

/-- `_get_ov_dict(dname, flow, platform, stage)`: the override dict for a
scope path. Global scope is the lazily-created `flow[dname]`;
`flow[platform]` must already exist (`KeyError` otherwise), while a missing
stage dict and the override subsection itself are lazily created. A non-dict
met where a dict is expected raises (`AttributeError` on `.get`). -/
def get_ov_dict (dname : String) (flow : Entries) (platform stage : Option String) :
    PyResult (PyVal × Entries) :=
  if truthy platform = false then
    .ok (get_lazy_dict flow dname)
  else
    match platform with
    | none => .exn "KeyError"
    | some p =>
      match dget flow p with
      | none => .exn "KeyError"
      | some (.dict pd) =>
        if truthy stage = true then
          match stage with
          | none => .exn "KeyError"
          | some s =>
            match get_lazy_dict pd s with
            | (.dict sd, pd1) =>
              let r := get_lazy_dict sd dname
              .ok (r.1, dset flow p (.dict (dset pd1 s (.dict r.2))))
            | (_, _) => .exn "AttributeError"
        else
          let r := get_lazy_dict pd dname
          .ok (r.1, dset flow p (.dict r.2))
      | some _ => .exn "AttributeError"

/-- Write a slot dict back at the scope path addressed by `get_ov_dict`:
this renders the Python aliasing by which mutating the dict returned from
`_get_ov_dict` mutates the document. Only invoked on paths where
`get_ov_dict` succeeded, so the scope path exists and consists of dicts. -/
def ov_dict_set (dname : String) (flow : Entries) (platform stage : Option String)
    (d : Entries) : Entries :=
  if truthy platform = false then dset flow dname (.dict d)
  else
    match platform with
    | none => flow
    | some p =>
      match dget flow p with
      | some (.dict pd) =>
        if truthy stage = true then
          match stage with
          | none => flow
          | some s =>
            match dget pd s with
            | some (.dict sd) =>
              dset flow p (.dict (dset pd s (.dict (dset sd dname (.dict d)))))
            | _ => flow
        else dset flow p (.dict (dset pd dname (.dict d)))
      | _ => flow

/-- `v.get(k)` on a document value: succeeds only when `v` is a dict
(`AttributeError` otherwise, as on Python strings/lists). -/
def pyDictGet (v : PyVal) (k : String) : PyResult (Option PyVal) :=
  match v with
  | .dict d => .ok (dget d k)
  | _ => .exn "AttributeError"

/-- `v.update(w)` on document values: both must be dicts; every name of `w`
has its whole value assigned into `v`. -/
def pyDictUpdate (v w : PyVal) : PyResult PyVal :=
  match v, w with
  | .dict d, .dict u => .ok (.dict (dupdate d u))
  | .dict _, _ => .exn "TypeError"
  | _, _ => .exn "AttributeError"

/-- Stage half of `_get_ovs_raw`: `flow_cfg[platform][stage].get(dict_name)`
and, when present, `vals.update(...)`. `present` records whether `vals`
aliases `flow[dname]` (the update is then visible in the document). -/
def stageStep (dname : String) (flow : Entries) (vals : PyVal) (present : Bool)
    (p : String) (stage : Option String) : PyResult (PyVal × Entries) :=
  match stage with
  | none => .ok (vals, flow)
  | some s =>
    match dget flow p with
    | none => .exn "KeyError"
    | some (.dict pd) =>
      match dget pd s with
      | none => .exn "KeyError"
      | some sv =>
        match pyDictGet sv dname with
        | .exn k => .exn k
        | .ok none => .ok (vals, flow)
        | .ok (some sw) =>
          match pyDictUpdate vals sw with
          | .exn k => .exn k
          | .ok v2 => .ok (v2, if present then dset flow dname v2 else flow)
    | some _ => .exn "TypeError"

/-- `_get_ovs_raw(dict_name, flow_cfg, platform, stage)`: start from the
global `dict_name` map (a fresh empty dict when absent — `vals` then does
NOT alias the document), overlay the platform's map with `vals.update`, then
the stage's. Since `vals` aliases `flow_cfg[dict_name]` when that key is
present, each update is also written into the document. -/
def get_ovs_raw (dname : String) (flow : Entries) (platform stage : Option String) :
    PyResult (PyVal × Entries) :=
  let present := (dget flow dname).isSome
  let v0 := (dget flow dname).getD (.dict [])
  match platform with
  | none => .ok (v0, flow)
  | some p =>
    match dget flow p with
    | none => .exn "KeyError"
    | some pv =>
      match pyDictGet pv dname with
      | .exn k => .exn k
      | .ok none => stageStep dname flow v0 present p stage
      | .ok (some pw) =>
        match pyDictUpdate v0 pw with
        | .exn k => .exn k
        | .ok v1 =>
          stageStep dname (if present then dset flow dname v1 else flow) v1 present p stage

/-- Which error message a failing override operation prints before
returning `False`. -/
inductive OpErr where
  | notSet : OpErr
  | notAList : OpErr
  | emptyIndexList : OpErr
  | indexOutOfRange : OpErr
  | alreadyExists : OpErr
deriving Repr, DecidableEq

/-- Outcome of a mutating override operation: the returned boolean, with
failures tagged by the error message the source prints. -/
inductive OpOut where
  | success : OpOut
  | failure : OpErr → OpOut
deriving Repr, DecidableEq

/-- `_add_ov`: append `values` to the named slot of the scope's override
dict. An unset slot is set to `values`; a list slot is extended in place
(`deps += values`); anything else prints the not-a-list message and returns
`False`. -/
def add_ov (dname : String) (flow : Entries) (name : String) (values : List String)
    (platform stage : Option String) : PyResult (OpOut × Entries) :=
  match get_ov_dict dname flow platform stage with
  | .exn k => .exn k
  | .ok (dv, flow1) =>
    match dv with
    | .dict d =>
      match dget d name with
      | some (.list l) =>
        .ok (.success, ov_dict_set dname flow1 platform stage (dset d name (.list (l ++ values))))
      | none =>
        .ok (.success, ov_dict_set dname flow1 platform stage (dset d name (.list values)))
      | some _ => .ok (.failure .notAList, flow1)
    | _ => .exn "AttributeError"

/-- `_rm_ov_by_values`: filter out of the slot every element that is a
member of `vals`, writing the filtered list back. In the source the
`NotSet` branch is guarded by `type(vallist) is None`, which is always
false (`type` never returns `None`), so an unset slot falls through to the
not-a-list message. -/
def rm_ov_by_values (dname : String) (flow : Entries) (name : String) (vals : List String)
    (platform stage : Option String) : PyResult (OpOut × Entries) :=
  match get_ov_dict dname flow platform stage with
  | .exn k => .exn k
  | .ok (dv, flow1) =>
    match dv with
    | .dict d =>
      match dget d name with
      | some (.list l) =>
        .ok (.success,
          ov_dict_set dname flow1 platform stage
            (dset d name (.list (l.filter (fun v => !vals.contains v)))))
      | _ => .ok (.failure .notAList, flow1)
    | _ => .exn "AttributeError"

/-- Insert `x` into a descending-sorted list, keeping it descending. -/
def insertDesc (x : Int) : List Int → List Int
  | [] => [x]
  | y :: ys => if y ≤ x then x :: y :: ys else y :: insertDesc x ys

/-- `idcs.sort(reverse=True)`: sort descending (insertion sort; a sorted
permutation, which on integers fully determines the result). -/
def sortDesc : List Int → List Int
  | [] => []
  | x :: xs => insertDesc x (sortDesc xs)

/-- Last element of `d :: l` (`idcs[len(idcs) - 1]` on a nonempty list). -/
def lastD (d : Int) : List Int → Int
  | [] => d
  | x :: xs => lastD x xs

/-- `l.pop(i)` with a Python int index: in-range nonnegative indices remove
the element at that position, in-range negative indices count from the end,
anything else raises `IndexError`. -/
def pypop {α : Type} (l : List α) (i : Int) : PyResult (List α) :=
  if 0 ≤ i ∧ i < (l.length : Int) then .ok (l.eraseIdx i.toNat)
  else if -(l.length : Int) ≤ i ∧ i < 0 then .ok (l.eraseIdx ((l.length : Int) + i).toNat)
  else .exn "IndexError"

/-- The source's removal loop `for idx in idcs: vallist.pop(idx)`; a pop
raising `IndexError` propagates out. -/
def popAll {α : Type} (l : List α) : List Int → PyResult (List α)
  | [] => .ok l
  | i :: is =>
    match pypop l i with
    | .ok l2 => popAll l2 is
    | .exn k => .exn k

/-- Keep the elements of `l` whose position is not selected by `P`
(order-preserving positional filter). -/
def dropIdxsB {α : Type} : List α → (Nat → Bool) → List α
  | [], _ => []
  | x :: xs, P =>
    cond (P 0) (dropIdxsB xs (fun n => P (n + 1))) (x :: dropIdxsB xs (fun n => P (n + 1)))

/-- Remove from `l` exactly the positions listed in `idcs`, preserving the
order of the remaining elements. -/
def dropIdxs {α : Type} (l : List α) (idcs : List Int) : List α :=
  dropIdxsB l (fun n => idcs.contains (n : Int))

/-- `_rm_ov_by_idx`: sort the indices descending, fail on an empty index
list, fail when the sorted maximum or minimum is out of range, otherwise pop
each index from highest to lowest. (Here, unlike `_rm_ov_by_values`, the
unset-slot test `if vallist is None` is written correctly.) -/
def rm_ov_by_idx (dname : String) (flow : Entries) (name : String) (idcs : List Int)
    (platform stage : Option String) : PyResult (OpOut × Entries) :=
  match sortDesc idcs with
  | [] => .ok (.failure .emptyIndexList, flow)
  | i0 :: rest =>
    match get_ov_dict dname flow platform stage with
    | .exn k => .exn k
    | .ok (dv, flow1) =>
      match dv with
      | .dict d =>
        match dget d name with
        | some (.list l) =>
          if (l.length : Int) ≤ i0 ∨ lastD i0 rest < 0 then
            .ok (.failure .indexOutOfRange, flow1)
          else
            match popAll l (i0 :: rest) with
            | .ok l2 =>
              .ok (.success, ov_dict_set dname flow1 platform stage (dset d name (.list l2)))
            | .exn k => .exn k
        | none => .ok (.failure .notSet, flow1)
        | some _ => .ok (.failure .notAList, flow1)
      | _ => .exn "AttributeError"

/-- `unset_dependency`: pop the named entry from the scope's dependency
dict, failing when it is absent. -/
def unset_ov (dname : String) (flow : Entries) (name : String)
    (platform stage : Option String) : PyResult (OpOut × Entries) :=
  match get_ov_dict dname flow platform stage with
  | .exn k => .exn k
  | .ok (dv, flow1) =>
    match dv with
    | .dict d =>
      match dget d name with
      | none => .ok (.failure .notSet, flow1)
      | some _ => .ok (.success, ov_dict_set dname flow1 platform stage (dpop d name))
    | _ => .exn "AttributeError"

/-- `_is_kword`: the reserved names at the platform level of the document. -/
def is_kword (w : String) : Bool :=
  (w == "dependencies") || (w == "values") ||
  (w == "default_platform") || (w == "default_target")

/-- `ProjectFlowConfig.platforms`: every top-level key that is not a
reserved keyword, in insertion order. -/
def platforms (flow : Entries) : List String :=
  (flow.map Prod.fst).filter (fun k => !is_kword k)

/-- `ProjectFlowConfig.add_platform`: refuse only when `flow_cfg.get(device)`
is truthy (`if d:`), otherwise assign a fresh empty dict. -/
def add_platform (flow : Entries) (device : String) : OpOut × Entries :=
  match dget flow device with
  | some v =>
    if truthyVal v then (.failure .alreadyExists, flow)
    else (.success, dset flow device (.dict []))
  | none => (.success, dset flow device (.dict []))

/-- Effective slot map behind `d.get(dname)` when the code treats a missing
key as an empty map: `some` of the map when the key holds a dict or is
absent, `none` when it holds a non-dict (which would raise downstream). -/
def slotMapOrEmpty (d : Entries) (dname : String) : Option Entries :=
  match dget d dname with
  | some (.dict m) => some m
  | none => some []
  | some _ => none

/-- Modelled from the spec: `Stage` (`f4pga.stage`, not under `src/`) — the
stage/module collaborator. Only the piece the claims touch is modelled: the
mutable `value_overrides` mapping it exposes (spec §6). -/
structure StageM where
  value_overrides : Entries
deriving Repr

/-- Modelled from the spec: `ResolutionEnv` (`f4pga.common`, not under
`src/`) is a name→value mapping; `add_values` assigns the given mapping into
it per name (later values override earlier ones for the same name,
non-overlapping names are additive, spec §4.3/§6), i.e. `dupdate`; it
supports copy-construction. `FlowDefinition` (source) holds such an
environment plus the stage-name → Stage mapping. -/
structure FlowDefinitionM where
  r_env : Entries
  stages : List (String × StageM)
deriving Repr

/-- `FlowConfig`: platform name, resolution environment, stage mapping
(structurally shared with the flow definition), and the platform's raw
dependency aggregate. The source also path-resolves the aggregate through
the external resolution environment and the filesystem
(`dependencies_explicit`); that materialization is an external
collaborator's work and is kept here in raw form. -/
structure FlowConfigM where
  platform : String
  r_env : Entries
  stages : List (String × StageM)
  dependencies_raw : PyVal
deriving Repr

/-- `ProjectFlowConfig.get_stage_value_overrides`: the stage's raw `values`
dict, defaulting to an empty dict when the stage or its `values` key is
absent; `flow_cfg[platform]` must exist. -/
def get_stage_value_overrides (flow : Entries) (platform stage : String) : PyResult PyVal :=
  match dget flow platform with
  | none => .exn "KeyError"
  | some pv =>
    match pyDictGet pv stage with
    | .exn k => .exn k
    | .ok none => .ok (.dict [])
    | .ok (some sc) =>
      match pyDictGet sc "values" with
      | .exn k => .exn k
      | .ok none => .ok (.dict [])
      | .ok (some vo) => .ok vo

/-- The stage loop of `FlowConfig.__init__`: for every stage of the flow
definition, merge the project's stage-level value overrides into that
stage's own (shared) `value_overrides` mapping. -/
def merge_stage_ovds (proj : Entries) (platform : String) :
    List (String × StageM) → PyResult (List (String × StageM))
  | [] => .ok []
  | (sname, st) :: rest =>
    match get_stage_value_overrides proj platform sname with
    | .exn k => .exn k
    | .ok (.dict ovds) =>
      match merge_stage_ovds proj platform rest with
      | .exn k => .exn k
      | .ok rest2 => .ok ((sname, ⟨dupdate st.value_overrides ovds⟩) :: rest2)
    | .ok _ => .exn "TypeError"

/-- `FlowConfig.__init__(project_config, platform_def, platform)`: alias the
flow definition's environment and add the platform's raw `values` aggregate
into it (the updated environment is therefore also the flow definition's),
fetch the raw dependency aggregate, and merge project stage-level value
overrides into the shared Stage objects. Returns the flow config together
with the flow definition and project document as they stand afterwards. -/
def flow_config_init (proj : Entries) (fd : FlowDefinitionM) (platform : String) :
    PyResult (FlowConfigM × FlowDefinitionM × Entries) :=
  match get_ovs_raw "values" proj (some platform) none with
  | .exn k => .exn k
  | .ok (.dict pvals, proj1) =>
    let r_env1 := dupdate fd.r_env pvals
    match get_ovs_raw "dependencies" proj1 (some platform) none with
    | .exn k => .exn k
    | .ok (rawdeps, proj2) =>
      match merge_stage_ovds proj2 platform fd.stages with
      | .exn k => .exn k
      | .ok stages1 =>
        .ok (⟨platform, r_env1, stages1, rawdeps⟩, ⟨r_env1, stages1⟩, proj2)
  | .ok _ => .exn "TypeError"

/-- `FlowConfig.get_r_env(stage_name)`: copy the config's environment and
add the stage's value overrides on top. -/
def get_r_env (fc : FlowConfigM) (stage_name : String) : PyResult Entries :=
  match dget fc.stages stage_name with
  | none => .exn "KeyError"
  | some st => .ok (dupdate fc.r_env st.value_overrides)

/-- `FlowDefinition.get_stage_r_env(stage_name)`: copy the definition's
environment and add the stage's value overrides on top. -/
def get_stage_r_env (fd : FlowDefinitionM) (stage_name : String) : PyResult Entries :=
  match dget fd.stages stage_name with
  | none => .exn "KeyError"
  | some st => .ok (dupdate fd.r_env st.value_overrides)

/-! ### Dictionary lemmas -/

theorem dget_dset_self {β : Type} (d : List (String × β)) (k : String) (v : β) :
    dget (dset d k v) k = some v := by
  induction d with
  | nil => simp [dget, dset]
  | cons hd rest ih =>
    obtain ⟨k0, w⟩ := hd
    by_cases h : k0 = k <;> simp [dget, dset, h, ih]

theorem dget_dset_ne {β : Type} (d : List (String × β)) (k n : String) (v : β)
    (h : k ≠ n) : dget (dset d k v) n = dget d n := by
  induction d with
  | nil => simp [dget, dset, h]
  | cons hd rest ih =>
    obtain ⟨k0, w⟩ := hd
    by_cases h0 : k0 = k
    · subst h0
      simp [dget, dset, h]
    · simp only [dset, if_neg h0]
      by_cases h1 : k0 = n <;> simp [dget, h1, ih]

theorem dset_dset_self {β : Type} (d : List (String × β)) (k : String) (v w : β) :
    dset (dset d k v) k w = dset d k w := by
  induction d with
  | nil => simp [dset]
  | cons hd rest ih =>
    obtain ⟨k0, u⟩ := hd
    by_cases h : k0 = k <;> simp [dset, h, ih]

theorem dget_eq_none_of_not_mem {β : Type} (d : List (String × β)) (n : String)
    (h : n ∉ d.map Prod.fst) : dget d n = none := by
  induction d with
  | nil => rfl
  | cons hd rest ih =>
    obtain ⟨k0, w⟩ := hd
    simp only [List.map_cons, List.mem_cons, not_or] at h
    have hne : ¬ k0 = n := fun hk => h.1 hk.symm
    simp [dget, hne, ih h.2]

theorem dget_dupdate {β : Type} (u : List (String × β))
    (hn : (u.map Prod.fst).Nodup) :
    ∀ (d : List (String × β)) (n : String),
      dget (dupdate d u) n = firstSome (dget u n) (dget d n) := by
  induction u with
  | nil => intro d n; rfl
  | cons hd rest ih =>
    obtain ⟨k, v⟩ := hd
    simp only [List.map_cons, List.nodup_cons] at hn
    intro d n
    show dget (dupdate (dset d k v) rest) n = _
    rw [ih hn.2]
    by_cases h : k = n
    · subst h
      rw [dget_eq_none_of_not_mem rest k hn.1, dget_dset_self]
      simp [dget, firstSome]
    · rw [dget_dset_ne d k n v h]
      simp [dget, h, firstSome]

theorem dupdate_keys_sub {β : Type} (u : List (String × β)) :
    ∀ (d : List (String × β)) (n : String),
      dget d n = none → dget u n = none → dget (dupdate d u) n = none := by
  induction u with
  | nil => intro d n h _; exact h
  | cons hd rest ih =>
    obtain ⟨k, v⟩ := hd
    intro d n hd0 hu
    by_cases h : k = n
    · subst h
      simp [dget] at hu
    · simp only [dget, if_neg h] at hu
      exact ih (dset d k v) n (by rw [dget_dset_ne d k n v h]; exact hd0) hu

theorem dupdate_nil {β : Type} (d : List (String × β)) : dupdate d [] = d := rfl

/-! ### Sorting lemmas for the index-removal operation -/

theorem insertDesc_perm (x : Int) (l : List Int) : (insertDesc x l).Perm (x :: l) := by
  induction l with
  | nil => exact List.Perm.refl _
  | cons y ys ih =>
    by_cases h : y ≤ x
    · simp [insertDesc, h]
    · simp only [insertDesc, if_neg h]
      exact (List.Perm.cons y ih).trans (List.Perm.swap x y ys)

theorem sortDesc_perm (l : List Int) : (sortDesc l).Perm l := by
  induction l with
  | nil => exact List.Perm.refl _
  | cons x xs ih => exact (insertDesc_perm x (sortDesc xs)).trans (List.Perm.cons x ih)

theorem mem_sortDesc {a : Int} {l : List Int} : a ∈ sortDesc l ↔ a ∈ l :=
  (sortDesc_perm l).mem_iff

theorem insertDesc_pairwise (x : Int) (l : List Int)
    (h : l.Pairwise (· ≥ ·)) : (insertDesc x l).Pairwise (· ≥ ·) := by
  induction l with
  | nil => simp [insertDesc]
  | cons y ys ih =>
    rw [List.pairwise_cons] at h
    by_cases hle : y ≤ x
    · simp only [insertDesc, if_pos hle]
      refine List.Pairwise.cons ?_ (List.Pairwise.cons h.1 h.2)
      intro a ha
      rcases List.mem_cons.mp ha with rfl | ha
      · exact hle
      · exact le_trans (h.1 a ha) hle
    · simp only [insertDesc, if_neg hle]
      refine List.Pairwise.cons ?_ (ih h.2)
      intro a ha
      rcases List.mem_cons.mp ((insertDesc_perm x ys).mem_iff.mp ha) with rfl | ha
      · exact le_of_lt (lt_of_not_le hle)
      · exact h.1 a ha

theorem sortDesc_pairwise (l : List Int) : (sortDesc l).Pairwise (· ≥ ·) := by
  induction l with
  | nil => simp [sortDesc]
  | cons x xs ih => exact insertDesc_pairwise x (sortDesc xs) ih

theorem sortDesc_pairwise_gt {l : List Int} (hn : l.Nodup) :
    (sortDesc l).Pairwise (· > ·) := by
  have hnd : (sortDesc l).Nodup := (sortDesc_perm l).nodup_iff.mpr hn
  exact ((sortDesc_pairwise l).and hnd).imp
    (fun h => lt_of_le_of_ne h.1 (Ne.symm h.2))

theorem sortDesc_eq_nil {l : List Int} (h : sortDesc l = []) : l = [] := by
  have := (sortDesc_perm l).length_eq
  rw [h] at this
  exact List.length_eq_zero.mp this.symm

theorem lastD_mem (d : Int) (l : List Int) : lastD d l ∈ d :: l := by
  induction l generalizing d with
  | nil => simp [lastD]
  | cons x xs ih =>
    rcases List.mem_cons.mp (ih x) with h | h
    · simp [lastD, h]
    · simp [lastD, List.mem_cons.mpr (Or.inr h)]

theorem pairwise_ge_head {x : Int} {xs : List Int}
    (h : (x :: xs).Pairwise (· ≥ ·)) : ∀ y ∈ x :: xs, x ≥ y := by
  rw [List.pairwise_cons] at h
  intro y hy
  rcases List.mem_cons.mp hy with rfl | hy
  · exact le_refl _
  · exact h.1 y hy

theorem pairwise_ge_lastD : ∀ (xs : List Int) (x : Int),
    (x :: xs).Pairwise (· ≥ ·) → ∀ y ∈ x :: xs, lastD x xs ≤ y := by
  intro xs
  induction xs with
  | nil =>
    intro x _ y hy
    rcases List.mem_cons.mp hy with rfl | hy
    · exact le_refl _
    · simp at hy
  | cons x2 xs2 ih =>
    intro x h y hy
    rw [List.pairwise_cons] at h
    have hlast : lastD x (x2 :: xs2) = lastD x2 xs2 := rfl
    rcases List.mem_cons.mp hy with rfl | hy
    · rw [hlast]
      exact le_trans (ih x2 h.2 x2 (List.mem_cons_self x2 xs2))
        (h.1 x2 (List.mem_cons_self x2 xs2))
    · rw [hlast]
      exact ih x2 h.2 y hy

/-! ### Positional removal: popping sorted indices equals the positional filter -/

theorem bool_eq_of_iff {a b : Bool} (h : a = true ↔ b = true) : a = b := by
  cases a <;> cases b <;> simp_all

theorem contains_true_iff {l : List Int} {a : Int} : l.contains a = true ↔ a ∈ l := by
  induction l with
  | nil => simp
  | cons x xs ih =>
    rw [List.contains_cons, Bool.or_eq_true, ih, List.mem_cons, beq_iff_eq]

theorem dropIdxsB_false {α : Type} (l : List α) (P : Nat → Bool)
    (h : ∀ j, P j = false) : dropIdxsB l P = l := by
  induction l generalizing P with
  | nil => rfl
  | cons x xs ih => simp [dropIdxsB, h 0, ih (fun n => P (n + 1)) (fun j => h (j + 1))]

theorem dropIdxsB_eraseIdx {α : Type} :
    ∀ (l : List α) (i : Nat) (P : Nat → Bool), i < l.length →
      (∀ j, P j = true → j < i) →
      dropIdxsB (l.eraseIdx i) P = dropIdxsB l (fun n => (n == i) || P n) := by
  intro l
  induction l with
  | nil => intro i P hi _; simp at hi
  | cons x xs ih =>
    intro i P hi hP
    cases i with
    | zero =>
      have hPf : ∀ j, P j = false := by
        intro j
        cases hj : P j with
        | false => rfl
        | true => exact absurd (hP j hj) (Nat.not_lt_zero j)
      show dropIdxsB xs P = dropIdxsB (x :: xs) (fun n => (n == 0) || P n)
      show dropIdxsB xs P =
        cond ((0 == 0) || P 0) (dropIdxsB xs (fun n => ((n + 1) == 0) || P (n + 1)))
          (x :: dropIdxsB xs (fun n => ((n + 1) == 0) || P (n + 1)))
      have h0 : ((0 == 0) || P 0) = true := by simp
      rw [h0, cond_true, dropIdxsB_false xs P hPf,
        dropIdxsB_false xs _ (fun j => by simp [hPf (j + 1)])]
    | succ i0 =>
      have hi0 : i0 < xs.length := by simpa using hi
      show dropIdxsB (x :: xs.eraseIdx i0) P
        = dropIdxsB (x :: xs) (fun n => (n == i0 + 1) || P n)
      show (cond (P 0) (dropIdxsB (xs.eraseIdx i0) (fun n => P (n + 1)))
          (x :: dropIdxsB (xs.eraseIdx i0) (fun n => P (n + 1))))
        = cond ((0 == i0 + 1) || P 0)
            (dropIdxsB xs (fun n => ((n + 1) == i0 + 1) || P (n + 1)))
            (x :: dropIdxsB xs (fun n => ((n + 1) == i0 + 1) || P (n + 1)))
      have hih : dropIdxsB (xs.eraseIdx i0) (fun n => P (n + 1))
          = dropIdxsB xs (fun n => ((n + 1) == i0 + 1) || P (n + 1)) := by
        rw [ih i0 (fun n => P (n + 1)) hi0
          (fun j hj => Nat.lt_of_succ_lt_succ (hP (j + 1) hj))]
        congr 1
        funext n
        have : ((n + 1 : Nat) == i0 + 1) = (n == i0) := by
          apply bool_eq_of_iff
          simp
        rw [this]
      have h0 : ((0 == i0 + 1) || P 0) = P 0 := by simp
      rw [h0, hih]

theorem popAll_pairwise {α : Type} :
    ∀ (s : List Int) (l : List α), s.Pairwise (· > ·) →
      (∀ i ∈ s, 0 ≤ i ∧ i < (l.length : Int)) →
      popAll l s = .ok (dropIdxsB l (fun n => s.contains (n : Int))) := by
  intro s
  induction s with
  | nil =>
    intro l _ _
    show PyResult.ok l = _
    rw [dropIdxsB_false l _ (fun j => by simp [List.contains])]
  | cons i is ih =>
    intro l hsort hb
    have hi := hb i (List.mem_cons_self i is)
    rw [List.pairwise_cons] at hsort
    have hpop : pypop l i = .ok (l.eraseIdx i.toNat) := by
      simp [pypop, hi.1, hi.2]
    have hlen : i.toNat < l.length := by omega
    have hblt : ∀ j ∈ is, 0 ≤ j ∧ j < ((l.eraseIdx i.toNat).length : Int) := by
      intro j hj
      have hji := hsort.1 j hj
      have hjb := hb j (List.mem_cons.mpr (Or.inr hj))
      rw [List.length_eraseIdx]
      simp only [if_pos hlen]
      omega
    show (match pypop l i with
      | .ok l2 => popAll l2 is
      | .exn k => .exn k) = _
    rw [hpop]
    show popAll (l.eraseIdx i.toNat) is = _
    rw [ih (l.eraseIdx i.toNat) hsort.2 hblt]
    congr 1
    rw [dropIdxsB_eraseIdx l i.toNat (fun n => is.contains (n : Int)) hlen
      (fun j hj => by
        have hji := hsort.1 (j : Int) (contains_true_iff.mp hj)
        omega)]
    congr 1
    funext n
    have hcons : (i :: is).contains (n : Int) = (((n : Int) == i) || is.contains (n : Int)) :=
      List.contains_cons
    rw [hcons]
    have : ((n : Nat) == i.toNat) = ((n : Int) == i) := by
      apply bool_eq_of_iff
      simp only [beq_iff_eq]
      omega
    rw [this]

/-! ### Claim theorems -/

/-- C2: the claim says read accessors and aggregation never mutate the raw
configuration document. The code violates it: in `_get_ovs_raw`, `vals`
aliases the document's global slot map, so `vals.update(platform_vals)`
writes the platform's entries into the global map. On a document with
global `values.X = [1,2]` and platform `p` `values.X = [3]`, aggregating at
`p` rewrites the document's global map to `X = [3]`. -/
theorem get_values_raw_mutates_doc :
    get_ovs_raw "values"
        [("values", .dict [("X", .list ["1", "2"])]),
         ("p", .dict [("values", .dict [("X", .list ["3"])])])]
        (some "p") none
      = .ok (.dict [("X", .list ["3"])],
          [("values", .dict [("X", .list ["3"])]),
           ("p", .dict [("values", .dict [("X", .list ["3"])])])])
    ∧ ([("values", PyVal.dict [("X", PyVal.list ["3"])]),
        ("p", PyVal.dict [("values", PyVal.dict [("X", PyVal.list ["3"])])])] : Entries)
      ≠ [("values", .dict [("X", .list ["1", "2"])]),
         ("p", .dict [("values", .dict [("X", .list ["3"])])])] := by
  refine ⟨rfl, ?_⟩
  intro h
  simp only [List.cons.injEq, Prod.mk.injEq] at h
  have h3 : PyVal.list ["3"] = PyVal.list ["1", "2"] := by
    have := h.1.2
    simp only [PyVal.dict.injEq, List.cons.injEq, Prod.mk.injEq] at this
    exact this.1.2
  simp only [PyVal.list.injEq, List.cons.injEq] at h3
  exact absurd h3.1 (by decide)

/-- C4: the claim says indexed removal is all-or-nothing for every index
list, including repeated indices, and never raises an uncontrolled fault.
The code violates it: with duplicated index `[0,0]` on slot `X = ["a"]` the
second `pop` raises `IndexError`; with `[1,1]` on `["a","b","c"]` it
reports success but removes both `"b"` and `"c"`, though only position 1
was designated. -/
theorem rm_by_idx_duplicate_index_bug :
    rm_ov_by_idx "values" [("values", .dict [("X", .list ["a"])])] "X" [0, 0] none none
      = .exn "IndexError"
    ∧ rm_ov_by_idx "values" [("values", .dict [("X", .list ["a", "b", "c"])])] "X"
        [1, 1] none none
      = .ok (.success, [("values", .dict [("X", .list ["a"])])]) :=
  ⟨rfl, rfl⟩

/-- C6: the claim says RemoveByValue on an unset slot fails with NotSet,
distinct from NotAList. The code violates it: its not-set branch is guarded
by `type(vallist) is None`, which is always false (`type` never returns
`None`), so an unset slot falls through to the not-a-list message. The
filter and idempotence halves of the claim do hold (second and third
conjuncts: removing `{"a","c"}` from `["a","b","a","c"]` leaves `["b"]`,
and removing again changes nothing). -/
theorem rm_by_values_unset_reports_notalist :
    rm_ov_by_values "values" [("values", .dict [])] "X" ["a"] none none
      = .ok (.failure .notAList, [("values", .dict [])])
    ∧ rm_ov_by_values "values" [("values", .dict [("X", .list ["a", "b", "a", "c"])])] "X"
        ["a", "c"] none none
      = .ok (.success, [("values", .dict [("X", .list ["b"])])])
    ∧ rm_ov_by_values "values" [("values", .dict [("X", .list ["b"])])] "X"
        ["a", "c"] none none
      = .ok (.success, [("values", .dict [("X", .list ["b"])])]) :=
  ⟨rfl, rfl, rfl⟩

/-- C8: the claim says adding a platform fails with AlreadyExists whenever
the platform key is already present. The code tests `if d:` (truthiness),
so a key present with an empty dict — exactly what a previous successful
`add_platform` stores — is treated as absent: the add succeeds and resets
the platform. Platform enumeration does filter the reserved keywords
(third conjunct). -/
theorem add_platform_existing_empty_succeeds :
    add_platform [("p", .dict [])] "p" = (.success, [("p", .dict [])])
    ∧ add_platform [] "p" = (.success, [("p", .dict [])])
    ∧ platforms
        [("default_platform", .str "p"), ("values", .dict [("X", .list ["1"])]),
         ("dependencies", .dict []), ("default_target", .str "t"), ("p", .dict [])]
      = ["p"] :=
  ⟨rfl, rfl, rfl⟩

/-- C7 counterexample: the claim says a scope lookup naming an existing
platform but an absent stage fails rather than creating the stage. In the
code `_get_ov_dict` reaches the stage through `_get_lazy_dict`, so the
missing stage map is created as an empty dict and the lookup succeeds. -/
theorem scope_lookup_absent_stage_creates :
    get_ov_dict "values" [("p", .dict [])] (some "p") (some "s")
      = .ok (.dict [], [("p", .dict [("s", .dict [("values", .dict [])])])]) :=
  rfl

/-- C7 amended: scope access for override operations lazily creates the
missing override subsection maps — and also a missing stage map — as empty
maps, while indexing into a platform that does not exist in the root fails
(KeyError, the ScopeNotFound of the spec). A lookup naming an existing
platform but an absent (nonempty-named) stage does not fail: the stage map
is created. At global scope the lookup never fails and creates at most the
subsection map. -/
theorem scope_access_spec :
    (∀ dname flow p st, p ≠ "" → dget flow p = none →
        get_ov_dict dname flow (some p) st = .exn "KeyError")
    ∧ (∀ dname flow p pd s, p ≠ "" → s ≠ "" → dget flow p = some (.dict pd) →
        dget pd s = none →
        get_ov_dict dname flow (some p) (some s)
          = .ok (.dict [], dset flow p (.dict (dset pd s (.dict [(dname, .dict [])])))))
    ∧ (∀ dname flow, dget flow dname = none →
        get_ov_dict dname flow none none = .ok (.dict [], dset flow dname (.dict [])))
    ∧ (∀ dname flow d, dget flow dname = some (.dict d) →
        get_ov_dict dname flow none none = .ok (.dict d, flow)) := by
  refine ⟨?_, ?_, ?_, ?_⟩
  · intro dname flow p st hp hnone
    have ht : truthy (some p) = true := by
      simp [truthy]
      exact hp
    simp [get_ov_dict, ht, hnone]
  · intro dname flow p pd s hp hs hpd hstage
    have htp : truthy (some p) = true := by
      simp [truthy]
      exact hp
    have hts : truthy (some s) = true := by
      simp [truthy]
      exact hs
    simp only [get_ov_dict, htp, hts, hpd, get_lazy_dict, hstage]
    simp [dget, dset_dset_self, dset]
  · intro dname flow hnone
    simp [get_ov_dict, truthy, get_lazy_dict, hnone]
  · intro dname flow d hd
    simp [get_ov_dict, truthy, get_lazy_dict, hd]

/-- C7 witness: concrete instances of the four parts of
`scope_access_spec`. -/
theorem scope_access_witness :
    get_ov_dict "values" [("q", PyVal.dict [])] (some "p") none = .exn "KeyError"
    ∧ get_ov_dict "values" [("p", PyVal.dict [])] (some "p") (some "t")
      = .ok (.dict [], [("p", PyVal.dict [("t", PyVal.dict [("values", PyVal.dict [])])])])
    ∧ get_ov_dict "x" ([] : Entries) none none = .ok (.dict [], [("x", PyVal.dict [])])
    ∧ get_ov_dict "values" [("values", PyVal.dict [("a", PyVal.list [])])] none none
      = .ok (.dict [("a", PyVal.list [])], [("values", PyVal.dict [("a", PyVal.list [])])]) := by
  refine ⟨?_, ?_, ?_, ?_⟩
  · exact scope_access_spec.1 "values" _ "p" none (by decide) rfl
  · exact (scope_access_spec.2.1 "values" [("p", PyVal.dict [])] "p" [] "t"
      (by decide) (by decide) rfl rfl).trans rfl
  · exact scope_access_spec.2.2.1 "x" [] rfl
  · exact scope_access_spec.2.2.2 "values" _ [("a", PyVal.list [])] rfl

/-- C5: Append on an unset slot sets it to the given values; on a list slot
it concatenates at the end (order preserved, duplicates allowed); on a
non-sequence slot it fails with the not-a-list error and changes nothing;
and two consecutive appends starting from an unset slot leave the
concatenation of both calls' values in call order. Stated at global scope,
where the slot dict `d` is the (lazily created) `flow[dname]`. -/
theorem append_spec :
    (∀ dname flow d name vs, slotMapOrEmpty flow dname = some d → dget d name = none →
        add_ov dname flow name vs none none
          = .ok (.success, dset flow dname (.dict (dset d name (.list vs)))))
    ∧ (∀ dname flow d name l vs, dget flow dname = some (.dict d) →
        dget d name = some (.list l) →
        add_ov dname flow name vs none none
          = .ok (.success, dset flow dname (.dict (dset d name (.list (l ++ vs))))))
    ∧ (∀ dname flow d name s vs, dget flow dname = some (.dict d) →
        dget d name = some (.str s) →
        add_ov dname flow name vs none none = .ok (.failure .notAList, flow))
    ∧ (∀ dname flow d name vs1 vs2 flow1,
        slotMapOrEmpty flow dname = some d → dget d name = none →
        add_ov dname flow name vs1 none none = .ok (.success, flow1) →
        ∃ flow2 d2, add_ov dname flow1 name vs2 none none = .ok (.success, flow2)
          ∧ dget flow2 dname = some (.dict d2)
          ∧ dget d2 name = some (.list (vs1 ++ vs2))) := by
  have h1 : ∀ dname (flow d : Entries) name vs,
      slotMapOrEmpty flow dname = some d → dget d name = none →
      add_ov dname flow name vs none none
        = .ok (.success, dset flow dname (.dict (dset d name (.list vs)))) := by
    intro dname flow d name vs hslot hname
    cases hg : dget flow dname with
    | none =>
      rw [slotMapOrEmpty, hg] at hslot
      have hd : d = [] := by
        cases hslot
        rfl
      subst hd
      simp [add_ov, get_ov_dict, truthy, get_lazy_dict, hg, dget, ov_dict_set,
        dset_dset_self]
    | some v =>
      rw [slotMapOrEmpty, hg] at hslot
      match v, hslot with
      | .dict m, hslot =>
        have hd : m = d := by
          cases hslot
          rfl
        subst hd
        simp [add_ov, get_ov_dict, truthy, get_lazy_dict, hg, hname, ov_dict_set]
  have h2 : ∀ dname (flow d : Entries) name l vs, dget flow dname = some (.dict d) →
      dget d name = some (.list l) →
      add_ov dname flow name vs none none
        = .ok (.success, dset flow dname (.dict (dset d name (.list (l ++ vs))))) := by
    intro dname flow d name l vs hg hname
    simp [add_ov, get_ov_dict, truthy, get_lazy_dict, hg, hname, ov_dict_set]
  refine ⟨h1, h2, ?_, ?_⟩
  · intro dname flow d name s vs hg hname
    simp [add_ov, get_ov_dict, truthy, get_lazy_dict, hg, hname]
  · intro dname flow d name vs1 vs2 flow1 hslot hname hfirst
    rw [h1 dname flow d name vs1 hslot hname] at hfirst
    have hflow1 : flow1 = dset flow dname (.dict (dset d name (.list vs1))) := by
      cases hfirst
      rfl
    subst hflow1
    have hsecond := h2 dname _ (dset d name (.list vs1)) name vs1 vs2
      (dget_dset_self flow dname _) (dget_dset_self d name _)
    exact ⟨_, _, hsecond, dget_dset_self _ dname _, dget_dset_self _ name _⟩

/-- C5 witness: appending `["a","b"]` to an unset global slot and then
`["b","c"]` leaves `["a","b","b","c"]`; a non-list slot is refused. -/
theorem append_witness :
    add_ov "values" [] "X" ["a", "b"] none none
      = .ok (.success, [("values", PyVal.dict [("X", PyVal.list ["a", "b"])])])
    ∧ (∃ flow2 d2,
        add_ov "values" [("values", PyVal.dict [("X", PyVal.list ["a", "b"])])] "X"
          ["b", "c"] none none = .ok (.success, flow2)
        ∧ dget flow2 "values" = some (.dict d2)
        ∧ dget d2 "X" = some (.list ["a", "b", "b", "c"]))
    ∧ add_ov "values" [("values", PyVal.dict [("X", PyVal.str "v")])] "X" ["a"] none none
      = .ok (.failure .notAList, [("values", PyVal.dict [("X", PyVal.str "v")])]) := by
  refine ⟨?_, ?_, ?_⟩
  · exact (append_spec.1 "values" [] [] "X" ["a", "b"] rfl rfl).trans rfl
  · exact append_spec.2.2.2 "values" [] [] "X" ["a", "b"] ["b", "c"] _ rfl rfl
      ((append_spec.1 "values" [] [] "X" ["a", "b"] rfl rfl).trans rfl)
  · exact append_spec.2.2.1 "values" _ [("X", PyVal.str "v")] "X" "v" ["a"] rfl rfl

/-- Stage half of aggregation: overlaying the stage's slot map (empty when
absent) onto the running aggregate by whole-per-name replacement. -/
theorem stageStep_agg (dname : String) (flow : Entries) (p s : String)
    (pd sd ssm m : Entries) (present : Bool)
    (hp : dget flow p = some (.dict pd)) (hs : dget pd s = some (.dict sd))
    (hslot : slotMapOrEmpty sd dname = some ssm) :
    ∃ flow2, stageStep dname flow (.dict m) present p (some s)
      = .ok (.dict (dupdate m ssm), flow2) := by
  cases hsd : dget sd dname with
  | none =>
    rw [slotMapOrEmpty, hsd] at hslot
    injection hslot with h
    subst h
    exact ⟨flow, by simp [stageStep, hp, hs, pyDictGet, hsd, dupdate_nil]⟩
  | some v =>
    rw [slotMapOrEmpty, hsd] at hslot
    cases v with
    | dict ssm0 =>
      injection hslot with h
      subst h
      refine ⟨if present then dset flow dname (.dict (dupdate m ssm0)) else flow, ?_⟩
      simp [stageStep, hp, hs, pyDictGet, hsd, pyDictUpdate]
    | str s0 => simp at hslot
    | list l0 => simp at hslot

/-- C1: aggregation starts from the global slot map (empty when absent) and
overlays the platform's slot map by whole-per-name replacement; with a
stage, the stage's slot map is overlaid the same way. The per-name view
(`firstSome`) shows the most specific scope wins entirely: a name present
in the platform (resp. stage) map has its whole list taken from there,
never concatenated. The third conjunct is the claim's instance: global
`values.X=[1,2]`, platform `values.X=[3]` aggregates to `X=[3]`. -/
theorem aggregate_spec :
    (∀ dname flow p gsm pd psm,
        slotMapOrEmpty flow dname = some gsm →
        dget flow p = some (.dict pd) →
        slotMapOrEmpty pd dname = some psm →
        (psm.map Prod.fst).Nodup →
        ∃ flow2, get_ovs_raw dname flow (some p) none
            = .ok (.dict (dupdate gsm psm), flow2)
          ∧ ∀ n, dget (dupdate gsm psm) n = firstSome (dget psm n) (dget gsm n))
    ∧ (∀ dname flow p s gsm pd psm sd ssm,
        p ≠ dname →
        slotMapOrEmpty flow dname = some gsm →
        dget flow p = some (.dict pd) →
        slotMapOrEmpty pd dname = some psm →
        dget pd s = some (.dict sd) →
        slotMapOrEmpty sd dname = some ssm →
        (psm.map Prod.fst).Nodup →
        (ssm.map Prod.fst).Nodup →
        ∃ flow2, get_ovs_raw dname flow (some p) (some s)
            = .ok (.dict (dupdate (dupdate gsm psm) ssm), flow2)
          ∧ ∀ n, dget (dupdate (dupdate gsm psm) ssm) n
              = firstSome (dget ssm n) (firstSome (dget psm n) (dget gsm n)))
    ∧ (∃ doc2, get_ovs_raw "values"
        [("values", .dict [("X", .list ["1", "2"])]),
         ("p", .dict [("values", .dict [("X", .list ["3"])])])] (some "p") none
        = .ok (.dict [("X", .list ["3"])], doc2)) := by
  refine ⟨?_, ?_, ?_⟩
  · intro dname flow p gsm pd psm hslotg hp hslotp hnodup
    have hpt := dget_dupdate psm hnodup gsm
    cases hg : dget flow dname with
    | none =>
      rw [slotMapOrEmpty, hg] at hslotg
      injection hslotg with h
      subst h
      cases hpd : dget pd dname with
      | none =>
        rw [slotMapOrEmpty, hpd] at hslotp
        injection hslotp with h2
        subst h2
        exact ⟨flow,
          by simp [get_ovs_raw, hg, hp, pyDictGet, hpd, stageStep, dupdate_nil], hpt⟩
      | some pw =>
        rw [slotMapOrEmpty, hpd] at hslotp
        cases pw with
        | dict psm0 =>
          injection hslotp with h2
          subst h2
          exact ⟨flow,
            by simp [get_ovs_raw, hg, hp, pyDictGet, hpd, pyDictUpdate, stageStep], hpt⟩
        | str s0 => simp at hslotp
        | list l0 => simp at hslotp
    | some v =>
      rw [slotMapOrEmpty, hg] at hslotg
      cases v with
      | dict gsm0 =>
        injection hslotg with h
        subst h
        cases hpd : dget pd dname with
        | none =>
          rw [slotMapOrEmpty, hpd] at hslotp
          injection hslotp with h2
          subst h2
          exact ⟨flow,
            by simp [get_ovs_raw, hg, hp, pyDictGet, hpd, stageStep, dupdate_nil], hpt⟩
        | some pw =>
          rw [slotMapOrEmpty, hpd] at hslotp
          cases pw with
          | dict psm0 =>
            injection hslotp with h2
            subst h2
            exact ⟨dset flow dname (.dict (dupdate gsm0 psm0)),
              by simp [get_ovs_raw, hg, hp, pyDictGet, hpd, pyDictUpdate, stageStep], hpt⟩
          | str s0 => simp at hslotp
          | list l0 => simp at hslotp
      | str s0 => simp at hslotg
      | list l0 => simp at hslotg
  · intro dname flow p s gsm pd psm sd ssm hpne hslotg hp hslotp hsd hslots hnp hns
    have hpt : ∀ n, dget (dupdate (dupdate gsm psm) ssm) n
        = firstSome (dget ssm n) (firstSome (dget psm n) (dget gsm n)) := by
      intro n
      rw [dget_dupdate ssm hns, dget_dupdate psm hnp]
    cases hg : dget flow dname with
    | none =>
      rw [slotMapOrEmpty, hg] at hslotg
      injection hslotg with h
      subst h
      cases hpd : dget pd dname with
      | none =>
        rw [slotMapOrEmpty, hpd] at hslotp
        injection hslotp with h2
        subst h2
        obtain ⟨flow2, hstep⟩ :=
          stageStep_agg dname flow p s pd sd ssm (dupdate [] []) false hp hsd hslots
        refine ⟨flow2, ?_, hpt⟩
        simp only [get_ovs_raw, hg, hp, hpd, pyDictGet, Option.getD_none, Option.isSome_none]
        exact hstep
      | some pw =>
        rw [slotMapOrEmpty, hpd] at hslotp
        cases pw with
        | dict psm0 =>
          injection hslotp with h2
          subst h2
          obtain ⟨flow2, hstep⟩ :=
            stageStep_agg dname flow p s pd sd ssm (dupdate [] psm0) false hp hsd hslots
          refine ⟨flow2, ?_, hpt⟩
          simp only [get_ovs_raw, hg, hp, hpd, pyDictGet, pyDictUpdate, Option.getD_none,
            Option.isSome_none, Bool.false_eq_true, if_false]
          exact hstep
        | str s0 => simp at hslotp
        | list l0 => simp at hslotp
    | some v =>
      rw [slotMapOrEmpty, hg] at hslotg
      cases v with
      | dict gsm0 =>
        injection hslotg with h
        subst h
        cases hpd : dget pd dname with
        | none =>
          rw [slotMapOrEmpty, hpd] at hslotp
          injection hslotp with h2
          subst h2
          obtain ⟨flow2, hstep⟩ :=
            stageStep_agg dname flow p s pd sd ssm (dupdate gsm0 []) true hp hsd hslots
          refine ⟨flow2, ?_, hpt⟩
          simp only [get_ovs_raw, hg, hp, hpd, pyDictGet, Option.getD_some, Option.isSome_some]
          exact hstep
        | some pw =>
          rw [slotMapOrEmpty, hpd] at hslotp
          cases pw with
          | dict psm0 =>
            injection hslotp with h2
            subst h2
            have hp2 : dget (dset flow dname (.dict (dupdate gsm0 psm0))) p
                = some (.dict pd) := by
              rw [dget_dset_ne flow dname p _ (fun h => hpne h.symm)]
              exact hp
            obtain ⟨flow2, hstep⟩ := stageStep_agg dname
              (dset flow dname (.dict (dupdate gsm0 psm0))) p s pd sd ssm
              (dupdate gsm0 psm0) true hp2 hsd hslots
            refine ⟨flow2, ?_, hpt⟩
            simp only [get_ovs_raw, hg, hp, hpd, pyDictGet, pyDictUpdate, Option.getD_some,
              Option.isSome_some, if_true]
            exact hstep
          | str s0 => simp at hslotp
          | list l0 => simp at hslotp
      | str s0 => simp at hslotg
      | list l0 => simp at hslotg
  · exact ⟨_, rfl⟩

/-- C1 witness: the claim's concrete instance, obtained from the
platform-only part of `aggregate_spec`, together with its per-name view. -/
theorem aggregate_witness :
    ∃ doc2, get_ovs_raw "values"
        [("values", .dict [("X", .list ["1", "2"])]),
         ("q", .dict [("values", .dict [("X", .list ["3"]), ("W", .list ["7"])])])]
        (some "q") none
      = .ok (.dict [("X", .list ["3"]), ("W", .list ["7"])], doc2) := by
  obtain ⟨doc2, heq, hpt⟩ := aggregate_spec.1 "values"
    [("values", .dict [("X", .list ["1", "2"])]),
     ("q", .dict [("values", .dict [("X", .list ["3"]), ("W", .list ["7"])])])]
    "q" [("X", .list ["1", "2"])]
    [("values", .dict [("X", .list ["3"]), ("W", .list ["7"])])]
    [("X", .list ["3"]), ("W", .list ["7"])] rfl rfl rfl (by simp)
  exact ⟨doc2, heq⟩



/-- Global-scope override dict access when the subsection exists: no lazy
creation, the document is untouched. -/
theorem get_ov_dict_global_present (dname : String) (flow d : Entries)
    (hg : dget flow dname = some (.dict d)) :
    get_ov_dict dname flow none none = .ok (.dict d, flow) := by
  simp [get_ov_dict, truthy, get_lazy_dict, hg]

/-- C3: RemoveByIndex fails with the empty-index-list error on an empty
index list; on a list slot with a nonempty set of distinct indices all in
`[0, len-1]` it removes exactly the designated positions, preserving the
order of the remaining elements (`dropIdxs`); and when any index is
negative or `≥ len` it fails with the index-out-of-range error and the
document (hence the list) is unchanged. Stated at global scope, where the
slot dict is `flow[dname]`. -/
theorem rm_by_idx_spec :
    (∀ dname flow name, rm_ov_by_idx dname flow name [] none none
        = .ok (.failure .emptyIndexList, flow))
    ∧ (∀ dname flow d name l idcs,
        dget flow dname = some (.dict d) →
        dget d name = some (.list l) →
        idcs ≠ [] → idcs.Nodup →
        (∀ i ∈ idcs, 0 ≤ i ∧ i < (l.length : Int)) →
        rm_ov_by_idx dname flow name idcs none none
          = .ok (.success, dset flow dname (.dict (dset d name (.list (dropIdxs l idcs))))))
    ∧ (∀ dname flow d name l idcs,
        dget flow dname = some (.dict d) →
        dget d name = some (.list l) →
        (∃ i ∈ idcs, i < 0 ∨ (l.length : Int) ≤ i) →
        rm_ov_by_idx dname flow name idcs none none
          = .ok (.failure .indexOutOfRange, flow)) := by
  refine ⟨?_, ?_, ?_⟩
  · intro dname flow name
    rfl
  · intro dname flow d name l idcs hg hname hne hnodup hb
    cases hs : sortDesc idcs with
    | nil => exact absurd (sortDesc_eq_nil hs) hne
    | cons i0 rest =>
      have hmem : ∀ j : Int, j ∈ i0 :: rest ↔ j ∈ idcs := by
        intro j
        rw [← hs]
        exact mem_sortDesc
      have hb2 : ∀ i ∈ i0 :: rest, 0 ≤ i ∧ i < (l.length : Int) := by
        intro i hi
        exact hb i ((hmem i).mp hi)
      have hgt : (i0 :: rest).Pairwise (· > ·) := by
        rw [← hs]
        exact sortDesc_pairwise_gt hnodup
      have hcheck : ¬ ((l.length : Int) ≤ i0 ∨ lastD i0 rest < 0) := by
        push_neg
        exact ⟨(hb2 i0 (List.mem_cons_self i0 rest)).2, (hb2 _ (lastD_mem i0 rest)).1⟩
      have hpop := popAll_pairwise (i0 :: rest) l hgt hb2
      have hdrop : dropIdxsB l (fun n => (i0 :: rest).contains (n : Int))
          = dropIdxs l idcs := by
        unfold dropIdxs
        congr 1
        funext n
        apply bool_eq_of_iff
        rw [contains_true_iff, contains_true_iff]
        exact hmem (n : Int)
      rw [← hdrop]
      simp only [rm_ov_by_idx, hs, get_ov_dict_global_present dname flow d hg, hname,
        if_neg hcheck, hpop, ov_dict_set, truthy, if_true]
  · intro dname flow d name l idcs hg hname hout
    obtain ⟨i, hi, hiout⟩ := hout
    cases hs : sortDesc idcs with
    | nil =>
      rw [sortDesc_eq_nil hs] at hi
      simp at hi
    | cons i0 rest =>
      have hmem : i ∈ i0 :: rest := by
        rw [← hs]
        exact mem_sortDesc.mpr hi
      have hge : (i0 :: rest).Pairwise (· ≥ ·) := by
        rw [← hs]
        exact sortDesc_pairwise idcs
      have hcheck : (l.length : Int) ≤ i0 ∨ lastD i0 rest < 0 := by
        rcases hiout with hneg | hbig
        · right
          exact lt_of_le_of_lt (pairwise_ge_lastD rest i0 hge i hmem) hneg
        · left
          exact le_trans hbig (pairwise_ge_head hge i hmem)
      simp only [rm_ov_by_idx, hs, get_ov_dict_global_present dname flow d hg, hname,
        if_pos hcheck]

/-- C3 witness: indices `{0,2}` on `["a","b","c","d"]` yield `["b","d"]`;
index 7 on a four-element list is refused with the list unchanged; the
empty index list is refused. -/
theorem rm_by_idx_witness :
    rm_ov_by_idx "values" [("values", .dict [("X", .list ["a", "b", "c", "d"])])] "X"
        [0, 2] none none
      = .ok (.success, [("values", PyVal.dict [("X", PyVal.list ["b", "d"])])])
    ∧ rm_ov_by_idx "values" [("values", .dict [("X", .list ["a", "b", "c", "d"])])] "X"
        [0, 7] none none
      = .ok (.failure .indexOutOfRange,
          [("values", PyVal.dict [("X", PyVal.list ["a", "b", "c", "d"])])])
    ∧ rm_ov_by_idx "values" [("values", .dict [("X", .list ["a", "b", "c", "d"])])] "X"
        [] none none
      = .ok (.failure .emptyIndexList,
          [("values", PyVal.dict [("X", PyVal.list ["a", "b", "c", "d"])])]) := by
  refine ⟨?_, ?_, ?_⟩
  · exact (rm_by_idx_spec.2.1 "values"
      [("values", .dict [("X", .list ["a", "b", "c", "d"])])]
      [("X", .list ["a", "b", "c", "d"])] "X"
      ["a", "b", "c", "d"] [0, 2] rfl rfl (by decide) (by decide) (by decide)).trans rfl
  · exact rm_by_idx_spec.2.2 "values"
      [("values", .dict [("X", .list ["a", "b", "c", "d"])])]
      [("X", .list ["a", "b", "c", "d"])] "X"
      ["a", "b", "c", "d"] [0, 7] rfl rfl ⟨7, by decide, by decide⟩
  · exact rm_by_idx_spec.1 "values"
      [("values", .dict [("X", .list ["a", "b", "c", "d"])])] "X"

/-- C9: after FlowConfig construction, the environment returned for a stage
is the flow definition's base environment overlaid with the platform-level
raw `values` aggregate and then with that stage's (post-merge) value
overrides; the per-name view shows the most specific scope winning per
name, and a name bound only in the base keeping its base value. -/
theorem stage_env_spec (proj : Entries) (fd : FlowDefinitionM) (p s : String)
    (fc : FlowConfigM) (fd2 : FlowDefinitionM) (proj1 proj2 : Entries)
    (pvals : Entries) (st : StageM)
    (hagg : get_ovs_raw "values" proj (some p) none = .ok (.dict pvals, proj1))
    (hinit : flow_config_init proj fd p = .ok (fc, fd2, proj2))
    (hst : dget fc.stages s = some st)
    (hnp : (pvals.map Prod.fst).Nodup)
    (hns : ((st.value_overrides).map Prod.fst).Nodup) :
    get_r_env fc s = .ok (dupdate (dupdate fd.r_env pvals) st.value_overrides)
    ∧ ∀ n, dget (dupdate (dupdate fd.r_env pvals) st.value_overrides) n
        = firstSome (dget st.value_overrides n)
            (firstSome (dget pvals n) (dget fd.r_env n)) := by
  have hr : fc.r_env = dupdate fd.r_env pvals := by
    simp only [flow_config_init, hagg] at hinit
    split at hinit
    · cases hinit
    · split at hinit
      · cases hinit
      · cases hinit
        rfl
  constructor
  · rw [get_r_env, hst, hr]
  · intro n
    rw [dget_dupdate st.value_overrides hns, dget_dupdate pvals hnp]

/-- C10: FlowConfig construction aliases the flow definition's environment
rather than copying it: afterwards the definition's own environment is the
constructed config's environment, i.e. the base overlaid with platform P's
raw `values` aggregate, so `get_stage_r_env` on the definition (and any
later FlowConfig built from it) also starts from an environment that
includes P's platform-level values per name. -/
theorem flowdef_env_alias (proj : Entries) (fd : FlowDefinitionM) (p : String)
    (fc : FlowConfigM) (fd2 : FlowDefinitionM) (proj1 proj2 : Entries)
    (pvals : Entries)
    (hagg : get_ovs_raw "values" proj (some p) none = .ok (.dict pvals, proj1))
    (hinit : flow_config_init proj fd p = .ok (fc, fd2, proj2)) :
    fd2.r_env = dupdate fd.r_env pvals
    ∧ fd2.r_env = fc.r_env
    ∧ (∀ s st, dget fd2.stages s = some st →
        get_stage_r_env fd2 s
          = .ok (dupdate (dupdate fd.r_env pvals) st.value_overrides))
    ∧ ((pvals.map Prod.fst).Nodup →
        ∀ n, dget fd2.r_env n = firstSome (dget pvals n) (dget fd.r_env n)) := by
  have hr : fd2.r_env = dupdate fd.r_env pvals ∧ fd2.r_env = fc.r_env := by
    simp only [flow_config_init, hagg] at hinit
    split at hinit
    · cases hinit
    · split at hinit
      · cases hinit
      · cases hinit
        exact ⟨rfl, rfl⟩
  refine ⟨hr.1, hr.2, ?_, ?_⟩
  · intro s st hst
    rw [get_stage_r_env, hst, hr.1]
  · intro hnp n
    rw [hr.1, dget_dupdate pvals hnp]

/-- Concrete project document for the C9/C10 witnesses: platform `p` with
platform-level `values.Y = "2"` and stage `s` with override `Y = "3"`. -/
def projC : Entries :=
  [("p", .dict [("values", .dict [("Y", .str "2")]),
                ("s", .dict [("values", .dict [("Y", .str "3")])])])]

/-- Concrete flow definition for the C9/C10 witnesses: base environment
`Y = "1", Z = "9"` and one stage `s` with no overrides of its own. -/
def fdC : FlowDefinitionM := ⟨[("Y", .str "1"), ("Z", .str "9")], [("s", ⟨[]⟩)]⟩

/-- The flow config produced by `flow_config_init projC fdC "p"`. -/
def fcC : FlowConfigM :=
  ⟨"p", [("Y", .str "2"), ("Z", .str "9")], [("s", ⟨[("Y", .str "3")]⟩)], .dict []⟩

/-- The flow definition as it stands after that construction. -/
def fdC2 : FlowDefinitionM :=
  ⟨[("Y", .str "2"), ("Z", .str "9")], [("s", ⟨[("Y", .str "3")]⟩)]⟩

/-- C9 witness: base `Y=1, Z=9`, platform `Y=2`, stage override `Y=3`
resolve to `Y=3` with `Z=9` untouched. -/
theorem stage_env_witness :
    get_r_env fcC "s"
      = .ok (dupdate (dupdate fdC.r_env [("Y", .str "2")]) [("Y", .str "3")])
    ∧ dget (dupdate (dupdate fdC.r_env [("Y", .str "2")]) [("Y", .str "3")]) "Y"
      = some (.str "3")
    ∧ dget (dupdate (dupdate fdC.r_env [("Y", .str "2")]) [("Y", .str "3")]) "Z"
      = some (.str "9") := by
  obtain ⟨henv, hpt⟩ := stage_env_spec projC fdC "p" "s" fcC fdC2 projC projC
    [("Y", .str "2")] ⟨[("Y", .str "3")]⟩ rfl rfl rfl (by simp) (by simp)
  exact ⟨henv, (hpt "Y").trans rfl, (hpt "Z").trans rfl⟩

/-- C10 witness: after constructing `fcC` from `fdC` for platform `p`, the
definition's environment equals the config's, includes the platform value
`Y = "2"`, and its stage environment starts from the updated base. -/
theorem flowdef_env_alias_witness :
    fdC2.r_env = dupdate fdC.r_env [("Y", .str "2")]
    ∧ fdC2.r_env = fcC.r_env
    ∧ get_stage_r_env fdC2 "s"
      = .ok (dupdate (dupdate fdC.r_env [("Y", .str "2")]) [("Y", .str "3")])
    ∧ dget fdC2.r_env "Y" = some (.str "2") := by
  obtain ⟨h1, h2, h3, h4⟩ := flowdef_env_alias projC fdC "p" fcC fdC2 projC projC
    [("Y", .str "2")] rfl rfl
  exact ⟨h1, h2, h3 "s" ⟨[("Y", .str "3")]⟩ rfl, (h4 (by simp) "Y").trans rfl⟩
